import Mathlib

/-!
Verification development for the OSRS Price Tracker repository.

The backend's price-synchronization engine is embedded shallowly from the
Python code quoted in the repository (`backend/database.py` and
`backend/socket_manager.py` via `FAQ.md`, the lock discipline via
`DESIGN.md`), and the frontend items-table sort from the
`ItemsTable.tsx` component.  Python dicts keyed by item id are embedded
as association lists `List (Nat × PricePoint)`; a dict's keys are
assumed nodup where a proof needs it (a guarantee of the dict type).
Unix timestamps are `Nat`, prices are `Int`, nullable fields are
`Option`.
-/

set_option maxHeartbeats 1000000

/-- A price row.  Models both the candidate entries of the OSRS `latest`
payload (`highPrice`/`highTime`/`lowPrice`/`lowTime`, any of which may be
null) and the persisted `prices` table rows
(`high_price`/`high_time`/`low_price`/`low_time`, all nullable columns). -/
structure PricePoint where
  highPrice : Option Int
  highTime : Option Nat
  lowPrice : Option Int
  lowTime : Option Nat
  deriving DecidableEq, Repr

/-- Lookup in an association list keyed by item id: the Python
`dict.get(item_id, default)` (first entry with the key wins; a real dict
has unique keys). -/
def alookup : List (Nat × PricePoint) → Nat → Option PricePoint
  | [], _ => none
  | p :: rest, k => if p.1 = k then some p.2 else alookup rest k

/-- Whether an id is a key of the map (`item_id in dict`). -/
def hasKey (l : List (Nat × PricePoint)) (k : Nat) : Bool :=
  (alookup l k).isSome

/-- The key list of a map (`dict.keys()`). -/
def keysOf (l : List (Nat × PricePoint)) : List Nat :=
  l.map Prod.fst

/-- The Python `latest_data.get('highTime', 0) or 0`: a missing or null
timestamp is treated as 0. -/
def normTime (t : Option Nat) : Nat :=
  t.getD 0

/-- The Python `current_prices.get(item_id, {})` followed by
`.get('high_time', 0) or 0`: the persisted highTime of an id, with a
missing row or a null column treated as 0. -/
def currentHighTimeOf (current : List (Nat × PricePoint)) (k : Nat) : Nat :=
  match alookup current k with
  | none => none.getD 0
  | some pp => normTime pp.highTime

/-- The persisted lowTime of an id under the same normalization
(used to state the spec's claimed condition; the code itself never reads
it in `_detect_price_changes`). -/
def currentLowTimeOf (current : List (Nat × PricePoint)) (k : Nat) : Nat :=
  match alookup current k with
  | none => none.getD 0
  | some pp => normTime pp.lowTime

/-- `backend/database.py` `_detect_price_changes` (quoted in `FAQ.md`):
iterate over the candidate map, compare the candidate `highTime` to the
persisted `high_time` (both normalized with missing/null as 0), and keep
the whole candidate record when the candidate is strictly newer.  Note
the code compares only the high timestamps. -/
def detectPriceChanges (current latest : List (Nat × PricePoint)) :
    List (Nat × PricePoint) :=
  latest.foldl
    (fun updated p =>
      if currentHighTimeOf current p.1 < normTime p.2.highTime
      then updated ++ [p] else updated)
    []

/-- The detector's per-entry test, as a Boolean on one candidate entry. -/
def changeCond (current : List (Nat × PricePoint)) (p : Nat × PricePoint) :
    Bool :=
  decide (currentHighTimeOf current p.1 < normTime p.2.highTime)

/-- The inclusion condition of the ChangeSet as the spec words it
(spec §4.3 and claim C1): the candidate `highTime` is strictly greater
than the persisted one, or the candidate `lowTime` is strictly greater
than the persisted one, with missing/absent treated as 0.  This follows
the spec's words, to be compared with `detectPriceChanges` from the
source. -/
def specChangeCondition (current latest : List (Nat × PricePoint)) (k : Nat) :
    Bool :=
  match alookup latest k with
  | none => false
  | some pp =>
      decide (currentHighTimeOf current k < normTime pp.highTime) ||
      decide (currentLowTimeOf current k < normTime pp.lowTime)

/-- Modelled from the spec: `_batch_update_prices` is referenced but not
included in the repository excerpts.  This is the WHOLE-ROW reading of
the spec §4.4 batch-upsert (the ChangeSet's values are the whole
candidate records, `updated_items[item_id] = latest_data` in the quoted
detector): the persisted row of an existing id is replaced and a row for
a new id is inserted.  Spec §9 prefers the per-field reading, modelled
as `upsertFieldsOne` below; the claims proved through this definition
(C4, C7) hold under either reading, since they depend only on which ids
are touched and on the high fields, which both readings set alike. -/
def upsertOne (store : List (Nat × PricePoint)) (p : Nat × PricePoint) :
    List (Nat × PricePoint) :=
  if hasKey store p.1 then
    store.map (fun q => if q.1 = p.1 then p else q)
  else
    store ++ [p]

/-- Modelled from the spec: the atomic batch-upsert of a ChangeSet,
upserting each row (spec §4.4, all-or-nothing; the successful case is
modelled). -/
def batchUpdatePrices (store updates : List (Nat × PricePoint)) :
    List (Nat × PricePoint) :=
  updates.foldl upsertOne store

/-- One cycle's effect on the persisted price rows: detect changes of the
candidate snapshot against the store, then batch-upsert them
(`_update_from_osrs_api` steps 2–4). -/
def cycleStore (store latest : List (Nat × PricePoint)) :
    List (Nat × PricePoint) :=
  batchUpdatePrices store (detectPriceChanges store latest)

/-- Modelled from the spec: the per-field write of spec §9 — "this spec
treats the two comparisons (`high`, `low`) independently and updates
only the fields whose timestamp advanced" — merging a candidate row into
a persisted row: the high price/time pair is taken from the candidate
only when the candidate highTime is strictly newer than the persisted
one (missing/null as 0), and likewise, independently, for the low pair. -/
def mergePricePoint (old cand : PricePoint) : PricePoint :=
  { highPrice :=
      if normTime old.highTime < normTime cand.highTime
      then cand.highPrice else old.highPrice
    highTime :=
      if normTime old.highTime < normTime cand.highTime
      then cand.highTime else old.highTime
    lowPrice :=
      if normTime old.lowTime < normTime cand.lowTime
      then cand.lowPrice else old.lowPrice
    lowTime :=
      if normTime old.lowTime < normTime cand.lowTime
      then cand.lowTime else old.lowTime }

/-- Modelled from the spec: one row of the spec §9 per-field batch-upsert
(`_batch_update_prices` is absent from the repository excerpts): an
existing id's row is merged field-wise with the candidate record, a new
id's row is inserted. -/
def upsertFieldsOne (store : List (Nat × PricePoint)) (p : Nat × PricePoint) :
    List (Nat × PricePoint) :=
  if hasKey store p.1 then
    store.map (fun q => if q.1 = p.1 then (q.1, mergePricePoint q.2 p.2) else q)
  else
    store ++ [p]

/-- Modelled from the spec: the spec §9 per-field batch-upsert of a
ChangeSet, merging each row. -/
def batchUpdatePricesPerField (store updates : List (Nat × PricePoint)) :
    List (Nat × PricePoint) :=
  updates.foldl upsertFieldsOne store

/-- One cycle's effect on the persisted price rows under the spec §9
per-field write: detect changes of the candidate snapshot against the
store, then merge them field-wise. -/
def cycleStorePerField (store latest : List (Nat × PricePoint)) :
    List (Nat × PricePoint) :=
  batchUpdatePricesPerField store (detectPriceChanges store latest)

/-- Failure modes of `_fetch_osrs_latest_prices` (spec §7: timeout,
transport error, malformed payload). -/
inductive FetchError
  | timeout
  | transport
  | malformed
  deriving DecidableEq, Repr

/-- Observable side effects of one synchronization cycle, in the order
they are performed. -/
inductive SyncEvent
  | batchWrite (ids : List Nat)
  | notifyClients (ids : List Nat)
  | cacheRefresh
  deriving DecidableEq, Repr

/-- Process state seen by a cycle: the persisted `prices` rows and the
Redis freshness flag (`items_cache` present / TTL not expired). -/
structure SyncState where
  store : List (Nat × PricePoint)
  cacheFresh : Bool
  deriving DecidableEq, Repr

/-- `backend/database.py` `_update_from_osrs_api` (quoted in `FAQ.md`):
fetch latest prices, read current prices, detect changes; if any, batch
update the database and then notify the frontend; finally refresh the
cache TTL.  The fetch outcome is passed as an `Except` argument; on a
fetch failure the raised exception propagates, so nothing after step 1
runs — state is unchanged and no event is emitted. -/
def updateFromOsrsApi (fetched : Except FetchError (List (Nat × PricePoint)))
    (st : SyncState) : SyncState × List SyncEvent :=
  match fetched with
  | Except.error _ => (st, [])
  | Except.ok latestPrices =>
      let currentPrices := st.store
      let updatedItems := detectPriceChanges currentPrices latestPrices
      if updatedItems ≠ [] then
        ({ store := batchUpdatePrices st.store updatedItems, cacheFresh := true },
          [SyncEvent.batchWrite (keysOf updatedItems),
           SyncEvent.notifyClients (keysOf updatedItems),
           SyncEvent.cacheRefresh])
      else
        ({ st with cacheFresh := true }, [SyncEvent.cacheRefresh])

/-- The `price_update` WebSocket payload
(`backend/socket_manager.py`, quoted in `FAQ.md`; shape also declared as
`SocketMessage` in the frontend API types). -/
structure SocketMessage where
  type : String
  updated_items : List Nat
  count : Nat
  timestamp : String
  deriving DecidableEq, Repr

/-- `socket_manager.notify_price_updates`: builds the `price_update`
message for the changed item ids, `datetime.now().isoformat()` passed as
the `now` argument. -/
def notifyPriceUpdates (updatedItemIds : List Nat) (now : String) :
    SocketMessage :=
  { type := "price_update"
    updated_items := updatedItemIds
    count := updatedItemIds.length
    timestamp := now }

/-- Progress of one `maybeSynchronize` caller through the
`async with price_update_lock: await fetch_osrs_prices()` block quoted in
`DESIGN.md`: waiting to acquire the lock, holding it before the fetch,
holding it after the fetch, released and returned. -/
inductive TaskPhase
  | waiting
  | holding
  | fetched
  | finished
  deriving DecidableEq, Repr

/-- State of N concurrent callers sharing the asyncio lock: who holds the
lock, each caller's phase, and how many external fetches have been
performed in total. -/
structure LockSys where
  lockHeldBy : Option Nat
  phases : List TaskPhase
  fetchCount : Nat
  deriving DecidableEq, Repr

/-- One cooperative step of caller `i` under `asyncio.Lock` semantics:
`async with` BLOCKS — a waiting caller whose lock is held makes no
progress (it does not return); when the lock is free it acquires it,
then performs its own fetch, then releases. -/
def lockStep (s : LockSys) (i : Nat) : LockSys :=
  match s.phases.get? i with
  | some TaskPhase.waiting =>
      match s.lockHeldBy with
      | none =>
          { s with lockHeldBy := some i, phases := s.phases.set i TaskPhase.holding }
      | some _ => s
  | some TaskPhase.holding =>
      { s with fetchCount := s.fetchCount + 1, phases := s.phases.set i TaskPhase.fetched }
  | some TaskPhase.fetched =>
      { s with lockHeldBy := none, phases := s.phases.set i TaskPhase.finished }
  | _ => s

/-- N callers have just invoked `maybeSynchronize` while a refresh is
due: all wait at the lock, no fetch yet. -/
def initLockSys (n : Nat) : LockSys :=
  { lockHeldBy := none
    phases := List.replicate n TaskPhase.waiting
    fetchCount := 0 }

/-- Run an explicit interleaving (a list of caller indices). -/
def runSchedule (s : LockSys) (sched : List Nat) : LockSys :=
  sched.foldl lockStep s

/-- The schedule the asyncio event loop produces: the lock is FIFO, so
caller 0 acquires, fetches and releases, then caller 1, and so on. -/
def runSerialized (n : Nat) : LockSys :=
  (List.range n).foldl (fun s i => lockStep (lockStep (lockStep s i) i) i)
    (initLockSys n)

/-- A JavaScript value as it appears in a sortable `Item` field. -/
inductive JSVal
  | undef
  | null
  | num (n : Int)
  | str (s : String)
  | bool (b : Bool)
  deriving DecidableEq, Repr

/-- The frontend `Item` shape (`frontend/src/types/api.ts`): optional
TypeScript fields are `undefined` when missing. -/
structure Item where
  id : Nat
  name : String
  examine : Option String
  members : Bool
  lowalch : Option Int
  highalch : Option Int
  limit_value : Option Int
  value : Option Int
  icon : Option String
  high_price : Option Int
  low_price : Option Int
  high_time : Option Int
  low_time : Option Int
  price_last_updated : Option String
  deriving DecidableEq, Repr

/-- The sortable keys of `Item` (`keyof Item` in `ItemsTable.tsx`). -/
inductive SortField
  | id
  | name
  | examine
  | members
  | lowalch
  | highalch
  | limit_value
  | value
  | icon
  | high_price
  | low_price
  | high_time
  | low_time
  | price_last_updated
  deriving DecidableEq, Repr

/-- A missing optional number is `undefined` in JS. -/
def optNum : Option Int → JSVal
  | none => JSVal.undef
  | some n => JSVal.num n

/-- A missing optional string is `undefined` in JS. -/
def optStr : Option String → JSVal
  | none => JSVal.undef
  | some s => JSVal.str s

/-- `a[sortField]` — the JS value of an item's field. -/
def getSortValue (it : Item) : SortField → JSVal
  | SortField.id => JSVal.num it.id
  | SortField.name => JSVal.str it.name
  | SortField.examine => optStr it.examine
  | SortField.members => JSVal.bool it.members
  | SortField.lowalch => optNum it.lowalch
  | SortField.highalch => optNum it.highalch
  | SortField.limit_value => optNum it.limit_value
  | SortField.value => optNum it.value
  | SortField.icon => optStr it.icon
  | SortField.high_price => optNum it.high_price
  | SortField.low_price => optNum it.low_price
  | SortField.high_time => optNum it.high_time
  | SortField.low_time => optNum it.low_time
  | SortField.price_last_updated => optStr it.price_last_updated

/-- The items-table sort direction state. -/
inductive SortDirection
  | asc
  | desc
  deriving DecidableEq, Repr

/-- `aValue === null || aValue === undefined`. -/
def jsIsNullish : JSVal → Bool
  | JSVal.undef => true
  | JSVal.null => true
  | _ => false

/-- The comparator of `filteredAndSortedItems` in `ItemsTable.tsx`:
null/undefined on the left sorts after (returns 1), null/undefined on
the right sorts before (returns -1) — both before the direction is
applied; otherwise strings compare with `localeCompare` (passed in as
`lc`, the engine's locale collation), numbers by difference, any other
type combination compares equal; descending negates the comparison. -/
def itemCompare (lc : String → String → Int) (dir : SortDirection)
    (aValue bValue : JSVal) : Int :=
  if jsIsNullish aValue then 1
  else if jsIsNullish bValue then -1
  else
    let comparison : Int :=
      match aValue, bValue with
      | JSVal.str s1, JSVal.str s2 => lc s1 s2
      | JSVal.num n1, JSVal.num n2 => n1 - n2
      | _, _ => 0
    match dir with
    | SortDirection.asc => comparison
    | SortDirection.desc => -comparison

/-- Merge step of a comparator-driven merge sort (modelling the JS
engine's `Array.prototype.sort`, which is merge-based): take from the
left run while the comparator does not order it after the right head. -/
def jsMerge {α : Type} (le : α → α → Bool) : List α → List α → List α
  | [], l2 => l2
  | l1, [] => l1
  | a :: as, b :: bs =>
      if le a b then a :: jsMerge le as (b :: bs)
      else b :: jsMerge le (a :: as) bs
termination_by l1 l2 => l1.length + l2.length

/-- Split a list into two interleaved halves for merge sort. -/
def splitList {α : Type} : List α → List α × List α
  | [] => ([], [])
  | a :: rest =>
      let p := splitList rest
      (a :: p.2, p.1)

/-- Fuelled merge sort (fuel bounds the recursion depth; called with the
list length, which always suffices). -/
def jsMergeSortFuel {α : Type} (le : α → α → Bool) : Nat → List α → List α
  | _, [] => []
  | _, [a] => [a]
  | 0, l => l
  | fuel + 1, l =>
      let p := splitList l
      jsMerge le (jsMergeSortFuel le fuel p.1) (jsMergeSortFuel le fuel p.2)

/-- `Array.prototype.sort(cmp)` modelled as a comparator-driven merge
sort: `a` is placed before `b` when `cmp a b ≤ 0`. -/
def jsSort {α : Type} (cmp : α → α → Int) (l : List α) : List α :=
  jsMergeSortFuel (fun a b => decide (cmp a b ≤ 0)) l.length l

/-- The sort of `filteredAndSortedItems`: sort the rows with the
component's comparator on the chosen field and direction. -/
def sortItems (lc : String → String → Int) (dir : SortDirection)
    (field : SortField) (items : List Item) : List Item :=
  jsSort
    (fun a b => itemCompare lc dir (getSortValue a field) (getSortValue b field))
    items

theorem detect_eq_filter (current latest : List (Nat × PricePoint)) :
    detectPriceChanges current latest =
      latest.filter
        (fun p => decide (currentHighTimeOf current p.1 < normTime p.2.highTime)) := by
  have key : ∀ (l acc : List (Nat × PricePoint)),
      l.foldl
        (fun updated p =>
          if currentHighTimeOf current p.1 < normTime p.2.highTime
          then updated ++ [p] else updated)
        acc =
      acc ++ l.filter
        (fun p => decide (currentHighTimeOf current p.1 < normTime p.2.highTime)) := by
    intro l
    induction l with
    | nil => intro acc; simp
    | cons p rest ih =>
        intro acc
        by_cases h : currentHighTimeOf current p.1 < normTime p.2.highTime
        · simp [List.foldl, h, ih, List.filter_cons]
        · simp [List.foldl, h, ih, List.filter_cons]
  simpa [detectPriceChanges] using key latest []

theorem detect_eq_filter_changeCond (current latest : List (Nat × PricePoint)) :
    detectPriceChanges current latest = latest.filter (changeCond current) := by
  simpa [changeCond] using detect_eq_filter current latest

theorem hasKey_iff_mem_keys (l : List (Nat × PricePoint)) (k : Nat) :
    hasKey l k = true ↔ k ∈ l.map Prod.fst := by
  induction l with
  | nil => simp [hasKey, alookup]
  | cons p rest ih =>
      by_cases h : p.1 = k
      · simp [hasKey, alookup, h]
      · simp only [hasKey, alookup, if_neg h, List.map_cons, List.mem_cons]
        constructor
        · intro hs; exact Or.inr ((ih).1 hs)
        · intro hm
          rcases hm with hm | hm
          · exact absurd hm.symm h
          · exact (ih).2 hm

theorem alookup_mem (l : List (Nat × PricePoint)) (k : Nat) (pp : PricePoint) :
    alookup l k = some pp → (k, pp) ∈ l := by
  induction l with
  | nil => intro h; simp [alookup] at h
  | cons p rest ih =>
      obtain ⟨a, b⟩ := p
      intro h
      by_cases hk : a = k
      · subst hk
        have h2 : b = pp := by simpa [alookup] using h
        subst h2
        exact List.mem_cons_self _ _
      · simp only [alookup, if_neg hk] at h
        exact List.mem_cons_of_mem _ (ih h)

theorem alookup_eq_none_of_not_mem (l : List (Nat × PricePoint)) (k : Nat) :
    k ∉ l.map Prod.fst → alookup l k = none := by
  induction l with
  | nil => intro _; rfl
  | cons p rest ih =>
      obtain ⟨a, b⟩ := p
      intro h
      simp only [List.map_cons, List.mem_cons] at h
      push_neg at h
      have hne : ¬(a = k) := by
        intro he
        exact h.1 he.symm
      simp only [alookup, if_neg hne]
      exact ih h.2

theorem alookup_of_mem_nodup (l : List (Nat × PricePoint)) (k : Nat)
    (pp : PricePoint) (hnd : (l.map Prod.fst).Nodup) (hm : (k, pp) ∈ l) :
    alookup l k = some pp := by
  induction l with
  | nil => simp at hm
  | cons p rest ih =>
      obtain ⟨a, b⟩ := p
      simp only [List.map_cons, List.nodup_cons] at hnd
      rcases List.mem_cons.1 hm with hm | hm
      · obtain ⟨h1, h2⟩ := Prod.mk.inj_iff.1 hm.symm
        subst h1
        subst h2
        simp [alookup]
      · have hak : ¬(a = k) := by
          intro he
          subst he
          exact hnd.1 (List.mem_map_of_mem Prod.fst hm)
        simp only [alookup, if_neg hak]
        exact ih hnd.2 hm

/-- Characterization of lookup in the detector's result, assuming the
candidate map has unique keys (a Python dict guarantee): an id maps to
its candidate record when the high-timestamp test passes, and is absent
otherwise. -/
theorem alookup_detect (current latest : List (Nat × PricePoint)) (k : Nat)
    (hnd : (latest.map Prod.fst).Nodup) :
    alookup (detectPriceChanges current latest) k =
      match alookup latest k with
      | none => none
      | some pp =>
          if changeCond current (k, pp) = true then some pp else none := by
  rw [detect_eq_filter_changeCond]
  induction latest with
  | nil => simp [alookup]
  | cons p rest ih =>
      obtain ⟨a, b⟩ := p
      simp only [List.map_cons, List.nodup_cons] at hnd
      by_cases hk : a = k
      · subst hk
        cases hc : changeCond current (a, b) with
        | true => simp [List.filter_cons, hc, alookup]
        | false =>
            have habs : alookup (rest.filter (changeCond current)) a = none := by
              apply alookup_eq_none_of_not_mem
              intro hmem
              exact hnd.1 (List.Sublist.mem hmem
                (List.Sublist.map Prod.fst (List.filter_sublist rest)))
            simp [List.filter_cons, hc, alookup, habs]
      · cases hc : changeCond current (a, b) with
        | true =>
            simp only [List.filter_cons, hc, if_pos, alookup, if_neg hk]
            exact ih hnd.2
        | false =>
            simp only [List.filter_cons, hc, Bool.false_eq_true, if_false,
              alookup, if_neg hk]
            exact ih hnd.2

theorem alookup_append (l1 l2 : List (Nat × PricePoint)) (k : Nat) :
    alookup (l1 ++ l2) k =
      match alookup l1 k with
      | some v => some v
      | none => alookup l2 k := by
  induction l1 with
  | nil => rfl
  | cons p rest ih =>
      obtain ⟨a, b⟩ := p
      by_cases hk : a = k
      · simp [alookup, hk]
      · simp only [List.cons_append, alookup, if_neg hk]
        exact ih

theorem alookup_mapUpd_self (p : Nat × PricePoint) :
    ∀ store : List (Nat × PricePoint), hasKey store p.1 = true →
      alookup (store.map (fun q => if q.1 = p.1 then p else q)) p.1 = some p.2 := by
  intro store
  induction store with
  | nil => intro h; simp [hasKey, alookup] at h
  | cons q rest ih =>
      obtain ⟨a, b⟩ := q
      intro h
      by_cases hq : a = p.1
      · simp [alookup, hq]
      · have h2 : hasKey rest p.1 = true := by
          have hne : ¬(a = p.1) := hq
          simpa [hasKey, alookup, if_neg hne] using h
        simp only [List.map_cons, if_neg hq, alookup, if_neg hq]
        exact ih h2

theorem alookup_mapUpd_ne (p : Nat × PricePoint) (k : Nat) (h : k ≠ p.1) :
    ∀ store : List (Nat × PricePoint),
      alookup (store.map (fun q => if q.1 = p.1 then p else q)) k =
        alookup store k := by
  intro store
  induction store with
  | nil => rfl
  | cons q rest ih =>
      obtain ⟨a, b⟩ := q
      by_cases hq : a = p.1
      · have hpk : ¬(p.1 = k) := fun he => h he.symm
        have hak : ¬(a = k) := by rw [hq]; exact hpk
        simp only [List.map_cons, if_pos hq, alookup, if_neg hpk, if_neg hak]
        exact ih
      · simp only [List.map_cons, if_neg hq, alookup]
        by_cases hak : a = k
        · rw [if_pos hak, if_pos hak]
        · rw [if_neg hak, if_neg hak]
          exact ih

theorem alookup_upsertOne_self (store : List (Nat × PricePoint))
    (p : Nat × PricePoint) : alookup (upsertOne store p) p.1 = some p.2 := by
  unfold upsertOne
  by_cases hm : hasKey store p.1 = true
  · rw [if_pos hm]
    exact alookup_mapUpd_self p store hm
  · rw [if_neg hm]
    have hnone : alookup store p.1 = none := by
      cases h : alookup store p.1 with
      | none => rfl
      | some v => rw [hasKey, h] at hm; simp at hm
    rw [alookup_append, hnone]
    simp [alookup]

theorem alookup_upsertOne_ne (store : List (Nat × PricePoint))
    (p : Nat × PricePoint) (k : Nat) (h : k ≠ p.1) :
    alookup (upsertOne store p) k = alookup store k := by
  unfold upsertOne
  by_cases hm : hasKey store p.1 = true
  · rw [if_pos hm]
    exact alookup_mapUpd_ne p k h store
  · rw [if_neg hm]
    rw [alookup_append]
    cases hs : alookup store k with
    | some v => rfl
    | none =>
        have hpk : ¬(p.1 = k) := fun he => h he.symm
        simp [alookup, if_neg hpk]

theorem alookup_batch_of_not_mem (store us : List (Nat × PricePoint)) (k : Nat)
    (h : hasKey us k = false) :
    alookup (batchUpdatePrices store us) k = alookup store k := by
  induction us generalizing store with
  | nil => rfl
  | cons p rest ih =>
      have hk : ¬(p.1 = k) := by
        intro he
        simp [hasKey, alookup, he] at h
      have hrest : hasKey rest k = false := by
        simpa [hasKey, alookup, if_neg hk] using h
      simpa [batchUpdatePrices, List.foldl] using
        (ih (upsertOne store p) hrest).trans
          (alookup_upsertOne_ne store p k (fun he => hk he.symm))

theorem alookup_batch_of_mem (store us : List (Nat × PricePoint)) (k : Nat)
    (pp : PricePoint) (hnd : (us.map Prod.fst).Nodup)
    (h : alookup us k = some pp) :
    alookup (batchUpdatePrices store us) k = some pp := by
  induction us generalizing store with
  | nil => simp [alookup] at h
  | cons p rest ih =>
      simp only [List.map_cons, List.nodup_cons] at hnd
      by_cases hk : p.1 = k
      · have hpp : pp = p.2 := by
          simp only [alookup, if_pos hk] at h
          exact (Option.some_inj.1 h).symm
        have hrest : hasKey rest k = false := by
          rw [← hk] at *
          cases hcase : hasKey rest p.1 with
          | false => rfl
          | true => exact absurd ((hasKey_iff_mem_keys rest p.1).1 hcase) hnd.1
        subst hpp
        calc alookup (batchUpdatePrices store (p :: rest)) k
            = alookup (batchUpdatePrices (upsertOne store p) rest) k := rfl
          _ = alookup (upsertOne store p) k :=
              alookup_batch_of_not_mem _ rest k hrest
          _ = some p.2 := by rw [← hk]; exact alookup_upsertOne_self store p
      · have hrest : alookup rest k = some pp := by
          simpa [alookup, if_neg hk] using h
        exact ih (upsertOne store p) hnd.2 hrest

theorem nodup_keys_detect (current latest : List (Nat × PricePoint))
    (hnd : (latest.map Prod.fst).Nodup) :
    ((detectPriceChanges current latest).map Prod.fst).Nodup := by
  rw [detect_eq_filter_changeCond]
  exact hnd.sublist (List.Sublist.map Prod.fst (List.filter_sublist latest))

/-- C1 counterexample: persisted id 1 has `high_time = 5`, `low_time = 1`;
the candidate has `highTime = 5` and a strictly newer `lowTime = 9`.  The
claimed condition (either timestamp strictly greater) holds, yet the
detector excludes the id, because the code compares only `highTime`. -/
theorem C1_counterexample :
    specChangeCondition
        [(1, ⟨none, some 5, none, some 1⟩)]
        [(1, ⟨none, some 5, none, some 9⟩)] 1 = true ∧
      hasKey
        (detectPriceChanges
          [(1, ⟨none, some 5, none, some 1⟩)]
          [(1, ⟨none, some 5, none, some 9⟩)]) 1 = false := by
  decide

/-- C1 (amended): for every current and candidate map (candidate keys
unique, as for a Python dict), the detector's result contains an id iff
the id is present in the candidate map and its candidate highTime is
strictly greater than the persisted highTime, missing/absent treated as
0; the lowTime plays no role, so an id whose candidate timestamps equal
the persisted ones is excluded even when its prices differ. -/
theorem C1_detect_membership (current latest : List (Nat × PricePoint))
    (k : Nat) (hnd : (latest.map Prod.fst).Nodup) :
    hasKey (detectPriceChanges current latest) k = true ↔
      ∃ pp, alookup latest k = some pp ∧
        currentHighTimeOf current k < normTime pp.highTime := by
  rw [hasKey, alookup_detect current latest k hnd]
  cases h : alookup latest k with
  | none => simp
  | some pp =>
      by_cases hc : currentHighTimeOf current k < normTime pp.highTime
      · simp [changeCond, hc]
      · simp [changeCond, hc]

/-- C1 witness: Scenario A — persisted highTime 1000, candidate highTime
1005 with a lower price: the id is in the ChangeSet. -/
theorem C1_witness :
    hasKey
      (detectPriceChanges
        [(2, ⟨some 199, some 1000, none, none⟩)]
        [(2, ⟨some 197, some 1005, none, none⟩)]) 2 = true :=
  (C1_detect_membership
    [(2, ⟨some 199, some 1000, none, none⟩)]
    [(2, ⟨some 197, some 1005, none, none⟩)] 2 (by decide)).2
    ⟨⟨some 197, some 1005, none, none⟩, by decide, by decide⟩

theorem mergePricePoint_highTime_mono (old cand : PricePoint) :
    normTime old.highTime ≤ normTime (mergePricePoint old cand).highTime := by
  simp only [mergePricePoint]
  by_cases h : normTime old.highTime < normTime cand.highTime
  · rw [if_pos h]
    exact le_of_lt h
  · rw [if_neg h]

theorem mergePricePoint_lowTime_mono (old cand : PricePoint) :
    normTime old.lowTime ≤ normTime (mergePricePoint old cand).lowTime := by
  simp only [mergePricePoint]
  by_cases h : normTime old.lowTime < normTime cand.lowTime
  · rw [if_pos h]
    exact le_of_lt h
  · rw [if_neg h]

theorem alookup_mapMerge_ne (p : Nat × PricePoint) (k : Nat) (h : k ≠ p.1) :
    ∀ store : List (Nat × PricePoint),
      alookup
          (store.map
            (fun q => if q.1 = p.1 then (q.1, mergePricePoint q.2 p.2) else q))
          k =
        alookup store k := by
  intro store
  induction store with
  | nil => rfl
  | cons q rest ih =>
      obtain ⟨a, b⟩ := q
      by_cases hq : a = p.1
      · have hak : ¬(a = k) := by
          rw [hq]
          exact fun he => h he.symm
        simp only [List.map_cons, if_pos hq, alookup, if_neg hak]
        exact ih
      · simp only [List.map_cons, if_neg hq, alookup]
        by_cases hak : a = k
        · rw [if_pos hak, if_pos hak]
        · rw [if_neg hak, if_neg hak]
          exact ih

theorem alookup_mapMerge_self (p : Nat × PricePoint) :
    ∀ (store : List (Nat × PricePoint)) (old : PricePoint),
      alookup store p.1 = some old →
      alookup
          (store.map
            (fun q => if q.1 = p.1 then (q.1, mergePricePoint q.2 p.2) else q))
          p.1 =
        some (mergePricePoint old p.2) := by
  intro store
  induction store with
  | nil => intro old h; simp [alookup] at h
  | cons q rest ih =>
      obtain ⟨a, b⟩ := q
      intro old h
      by_cases hq : a = p.1
      · have hb : b = old := by simpa [alookup, hq] using h
        subst hb
        simp [alookup, hq]
      · have h2 : alookup rest p.1 = some old := by
          simpa [alookup, if_neg hq] using h
        simp only [List.map_cons, if_neg hq, alookup, if_neg hq]
        exact ih old h2

theorem currentHighTimeOf_upsertFieldsOne (store : List (Nat × PricePoint))
    (p : Nat × PricePoint) (k : Nat) :
    currentHighTimeOf store k ≤ currentHighTimeOf (upsertFieldsOne store p) k := by
  by_cases hk : k = p.1
  · subst hk
    unfold upsertFieldsOne
    by_cases hm : hasKey store p.1 = true
    · rw [if_pos hm]
      cases hs : alookup store p.1 with
      | none => rw [hasKey, hs] at hm; simp at hm
      | some old =>
          have h2 := alookup_mapMerge_self p store old hs
          unfold currentHighTimeOf
          rw [hs, h2]
          exact mergePricePoint_highTime_mono old p.2
    · rw [if_neg hm]
      have hs : alookup store p.1 = none := by
        cases hs2 : alookup store p.1 with
        | none => rfl
        | some v => rw [hasKey, hs2] at hm; simp at hm
      unfold currentHighTimeOf
      rw [hs]
      exact Nat.zero_le _
  · have h2 : alookup (upsertFieldsOne store p) k = alookup store k := by
      unfold upsertFieldsOne
      by_cases hm : hasKey store p.1 = true
      · rw [if_pos hm]
        exact alookup_mapMerge_ne p k hk store
      · rw [if_neg hm]
        rw [alookup_append]
        cases hs : alookup store k with
        | some v => rfl
        | none =>
            have hpk : ¬(p.1 = k) := fun he => hk he.symm
            simp [alookup, if_neg hpk]
    unfold currentHighTimeOf
    rw [h2]

theorem currentLowTimeOf_upsertFieldsOne (store : List (Nat × PricePoint))
    (p : Nat × PricePoint) (k : Nat) :
    currentLowTimeOf store k ≤ currentLowTimeOf (upsertFieldsOne store p) k := by
  by_cases hk : k = p.1
  · subst hk
    unfold upsertFieldsOne
    by_cases hm : hasKey store p.1 = true
    · rw [if_pos hm]
      cases hs : alookup store p.1 with
      | none => rw [hasKey, hs] at hm; simp at hm
      | some old =>
          have h2 := alookup_mapMerge_self p store old hs
          unfold currentLowTimeOf
          rw [hs, h2]
          exact mergePricePoint_lowTime_mono old p.2
    · rw [if_neg hm]
      have hs : alookup store p.1 = none := by
        cases hs2 : alookup store p.1 with
        | none => rfl
        | some v => rw [hasKey, hs2] at hm; simp at hm
      unfold currentLowTimeOf
      rw [hs]
      exact Nat.zero_le _
  · have h2 : alookup (upsertFieldsOne store p) k = alookup store k := by
      unfold upsertFieldsOne
      by_cases hm : hasKey store p.1 = true
      · rw [if_pos hm]
        exact alookup_mapMerge_ne p k hk store
      · rw [if_neg hm]
        rw [alookup_append]
        cases hs : alookup store k with
        | some v => rfl
        | none =>
            have hpk : ¬(p.1 = k) := fun he => hk he.symm
            simp [alookup, if_neg hpk]
    unfold currentLowTimeOf
    rw [h2]

theorem currentHighTimeOf_batchPerField (updates : List (Nat × PricePoint)) :
    ∀ (store : List (Nat × PricePoint)) (k : Nat),
      currentHighTimeOf store k ≤
        currentHighTimeOf (batchUpdatePricesPerField store updates) k := by
  induction updates with
  | nil => intro store k; exact le_refl _
  | cons p rest ih =>
      intro store k
      exact le_trans (currentHighTimeOf_upsertFieldsOne store p k)
        (ih (upsertFieldsOne store p) k)

theorem currentLowTimeOf_batchPerField (updates : List (Nat × PricePoint)) :
    ∀ (store : List (Nat × PricePoint)) (k : Nat),
      currentLowTimeOf store k ≤
        currentLowTimeOf (batchUpdatePricesPerField store updates) k := by
  induction updates with
  | nil => intro store k; exact le_refl _
  | cons p rest ih =>
      intro store k
      exact le_trans (currentLowTimeOf_upsertFieldsOne store p k)
        (ih (upsertFieldsOne store p) k)

/-- C2: for every identifier and every cycle that completes its
batch-upsert successfully — the write being the spec §9 per-field
upsert, which updates only the fields whose timestamp advanced — the
persisted highTime and the persisted lowTime after the cycle are each
greater than or equal to their values before the cycle: no cycle
overwrites a persisted price point with a candidate carrying an older or
equal timestamp in either field. -/
theorem C2_time_monotone (store latest : List (Nat × PricePoint)) (k : Nat) :
    currentHighTimeOf store k ≤
        currentHighTimeOf (cycleStorePerField store latest) k ∧
      currentLowTimeOf store k ≤
        currentLowTimeOf (cycleStorePerField store latest) k :=
  ⟨currentHighTimeOf_batchPerField (detectPriceChanges store latest) store k,
   currentLowTimeOf_batchPerField (detectPriceChanges store latest) store k⟩

/-- C3: when the external fetch fails (timeout, transport error or
malformed payload), the cycle terminates with the state unchanged — the
freshness flag is untouched (a due check stays due), the store is
untouched, and no event (no batch write, no notification) is emitted. -/
theorem C3_fetch_failure_no_effect (e : FetchError) (st : SyncState) :
    (updateFromOsrsApi (Except.error e) st).1 = st ∧
    (updateFromOsrsApi (Except.error e) st).2 = [] :=
  ⟨rfl, rfl⟩

/-- C4: the Change Detector is a pure function (same inputs give the
same ChangeSet), and re-running it against the same snapshot after
upserting its own ChangeSet yields an empty ChangeSet. -/
theorem C4_detector_idempotent (store latest : List (Nat × PricePoint))
    (hnd : (latest.map Prod.fst).Nodup) :
    detectPriceChanges store latest = detectPriceChanges store latest ∧
    detectPriceChanges (cycleStore store latest) latest = [] := by
  refine ⟨rfl, ?_⟩
  rw [detect_eq_filter_changeCond, List.filter_eq_nil_iff]
  intro p hp
  obtain ⟨a, b⟩ := p
  have hla : alookup latest a = some b := alookup_of_mem_nodup latest a b hnd hp
  have hdk := alookup_detect store latest a hnd
  rw [hla] at hdk
  simp only at hdk
  by_cases hc : changeCond store (a, b) = true
  · rw [if_pos hc] at hdk
    have hb := alookup_batch_of_mem store (detectPriceChanges store latest) a b
      (nodup_keys_detect store latest hnd) hdk
    intro hcc
    have hlt : currentHighTimeOf (cycleStore store latest) a <
        normTime b.highTime := of_decide_eq_true hcc
    have hres : currentHighTimeOf (cycleStore store latest) a =
        normTime b.highTime := by
      unfold cycleStore
      unfold currentHighTimeOf
      rw [hb]
    rw [hres] at hlt
    exact absurd hlt (lt_irrefl _)
  · rw [if_neg hc] at hdk
    have hkey : hasKey (detectPriceChanges store latest) a = false := by
      rw [hasKey, hdk]; rfl
    have hsame := alookup_batch_of_not_mem store (detectPriceChanges store latest) a hkey
    intro hcc
    apply hc
    have : currentHighTimeOf (cycleStore store latest) a =
        currentHighTimeOf store a := by
      unfold cycleStore
      unfold currentHighTimeOf
      rw [hsame]
    unfold changeCond at hcc ⊢
    rw [← this]
    exact hcc

/-- C4 witness: a concrete store and snapshot with one changed id — the
idempotence theorem applies. -/
theorem C4_witness :
    detectPriceChanges
        (cycleStore
          [(1, ⟨some 10, some 5, some 20, some 7⟩)]
          [(1, ⟨some 11, some 6, some 21, some 8⟩)])
        [(1, ⟨some 11, some 6, some 21, some 8⟩)] = [] :=
  (C4_detector_idempotent
    [(1, ⟨some 10, some 5, some 20, some 7⟩)]
    [(1, ⟨some 11, some 6, some 21, some 8⟩)] (by decide)).2

/-- C5: within one cycle, a `price_update` notification for a set of
changed ids never precedes the batch-write of those ids — whenever the
cycle's event list contains a notification at position i, the batch
write of the same ids occurs at an earlier position j. -/
theorem C5_write_precedes_notification
    (fetched : Except FetchError (List (Nat × PricePoint))) (st : SyncState)
    (i : Nat) (ids : List Nat)
    (h : ((updateFromOsrsApi fetched st).2).get? i =
      some (SyncEvent.notifyClients ids)) :
    ∃ j, j < i ∧ ((updateFromOsrsApi fetched st).2).get? j =
      some (SyncEvent.batchWrite ids) := by
  cases fetched with
  | error e => simp [updateFromOsrsApi] at h
  | ok latestPrices =>
      by_cases hne : detectPriceChanges st.store latestPrices ≠ []
      · simp only [updateFromOsrsApi, if_pos hne] at h ⊢
        cases i with
        | zero => simp [List.get?] at h
        | succ i1 =>
            cases i1 with
            | zero =>
                have hids : keysOf (detectPriceChanges st.store latestPrices) = ids := by
                  simpa [List.get?] using h
                exact ⟨0, by omega, by simp [List.get?, hids]⟩
            | succ i2 =>
                cases i2 with
                | zero => simp [List.get?] at h
                | succ i3 => simp [List.get?] at h
      · simp only [updateFromOsrsApi, if_neg hne] at h
        cases i with
        | zero => simp [List.get?] at h
        | succ i1 => simp [List.get?] at h

/-- C5 witness: a concrete cycle with one changed id — the notification
sits at position 1 and the batch write of the same id at position 0. -/
theorem C5_witness :
    ∃ j, j < 1 ∧
      ((updateFromOsrsApi
          (Except.ok [(1, ⟨some 110, some 11, some 55, some 21⟩)])
          ⟨[(1, ⟨some 100, some 10, some 50, some 20⟩)], false⟩).2).get? j =
        some (SyncEvent.batchWrite [1]) :=
  C5_write_precedes_notification
    (Except.ok [(1, ⟨some 110, some 11, some 55, some 21⟩)])
    ⟨[(1, ⟨some 100, some 10, some 50, some 20⟩)], false⟩ 1 [1] (by decide)

/-- C6 counterexample: in a concrete cycle with a non-empty ChangeSet the
event list is batch write, then notification, then cache refresh
(`markRefreshed`) — the cache refresh at position 2 comes AFTER the
notification at position 1, so markRefreshed does not happen before the
Notifier as the claim states. -/
theorem C6_counterexample :
    ¬ (∀ i j ids,
        ((updateFromOsrsApi
            (Except.ok [(1, ⟨some 110, some 11, some 55, some 21⟩)])
            ⟨[(1, ⟨some 100, some 10, some 50, some 20⟩)], false⟩).2).get? i =
          some SyncEvent.cacheRefresh →
        ((updateFromOsrsApi
            (Except.ok [(1, ⟨some 110, some 11, some 55, some 21⟩)])
            ⟨[(1, ⟨some 100, some 10, some 50, some 20⟩)], false⟩).2).get? j =
          some (SyncEvent.notifyClients ids) →
        i < j) := by
  intro h
  have h2 := h 2 1 [1] (by decide) (by decide)
  omega

/-- C6 (amended): the cycle always refreshes the cache (markRefreshed)
— after a successful write and after an empty changeset alike — and the
Notifier runs only when the changeset is non-empty; but the order is
write, then notification, then markRefreshed: the notification PRECEDES
markRefreshed, not the other way round. -/
theorem C6_refresh_last (latestPrices : List (Nat × PricePoint))
    (st : SyncState) :
    (updateFromOsrsApi (Except.ok latestPrices) st).1.cacheFresh = true ∧
    (detectPriceChanges st.store latestPrices ≠ [] →
      (updateFromOsrsApi (Except.ok latestPrices) st).2 =
        [SyncEvent.batchWrite (keysOf (detectPriceChanges st.store latestPrices)),
         SyncEvent.notifyClients (keysOf (detectPriceChanges st.store latestPrices)),
         SyncEvent.cacheRefresh]) ∧
    (detectPriceChanges st.store latestPrices = [] →
      (updateFromOsrsApi (Except.ok latestPrices) st).2 =
        [SyncEvent.cacheRefresh]) := by
  by_cases hne : detectPriceChanges st.store latestPrices ≠ []
  · exact ⟨by simp [updateFromOsrsApi, hne], fun _ => by simp [updateFromOsrsApi, hne],
      fun he => absurd he hne⟩
  · exact ⟨by simp [updateFromOsrsApi, hne], fun hx => absurd hx hne,
      fun _ => by simp [updateFromOsrsApi, hne]⟩

/-- C6 witness: the amended order theorem applied to a concrete cycle
with one changed id, and to a concrete cycle with no change. -/
theorem C6_witness :
    (updateFromOsrsApi
        (Except.ok [(1, ⟨some 110, some 11, some 55, some 21⟩)])
        ⟨[(1, ⟨some 100, some 10, some 50, some 20⟩)], false⟩).2 =
      [SyncEvent.batchWrite [1], SyncEvent.notifyClients [1],
       SyncEvent.cacheRefresh] :=
  (C6_refresh_last [(1, ⟨some 110, some 11, some 55, some 21⟩)]
      ⟨[(1, ⟨some 100, some 10, some 50, some 20⟩)], false⟩).2.1 (by decide)

/-- C7: an id present in the persisted store but absent from the
candidate snapshot is not in the ChangeSet, and its persisted row is
left exactly as it was by the cycle — no deletion, no modification. -/
theorem C7_absent_ids_untouched (st : SyncState)
    (latestPrices : List (Nat × PricePoint)) (k : Nat)
    (h : hasKey latestPrices k = false) :
    hasKey (detectPriceChanges st.store latestPrices) k = false ∧
    alookup ((updateFromOsrsApi (Except.ok latestPrices) st).1.store) k =
      alookup st.store k := by
  have h1 : hasKey (detectPriceChanges st.store latestPrices) k = false := by
    cases hck : hasKey (detectPriceChanges st.store latestPrices) k with
    | false => rfl
    | true =>
        have hk2 := (hasKey_iff_mem_keys _ k).1 hck
        rw [detect_eq_filter_changeCond] at hk2
        have hmem : k ∈ latestPrices.map Prod.fst :=
          List.Sublist.mem hk2 (List.Sublist.map Prod.fst (List.filter_sublist _))
        have := (hasKey_iff_mem_keys latestPrices k).2 hmem
        rw [h] at this
        exact absurd this (by simp)
  refine ⟨h1, ?_⟩
  by_cases hne : detectPriceChanges st.store latestPrices ≠ []
  · simp only [updateFromOsrsApi, if_pos hne]
    exact alookup_batch_of_not_mem st.store (detectPriceChanges st.store latestPrices) k h1
  · simp only [updateFromOsrsApi, if_neg hne]

/-- C7 witness: id 7 is persisted but missing from the snapshot; the
cycle leaves its row untouched. -/
theorem C7_witness :
    hasKey
        (detectPriceChanges
          [(7, ⟨some 1, some 2, some 3, some 4⟩)]
          [(1, ⟨some 110, some 11, some 55, some 21⟩)]) 7 = false ∧
      alookup
        ((updateFromOsrsApi
            (Except.ok [(1, ⟨some 110, some 11, some 55, some 21⟩)])
            ⟨[(7, ⟨some 1, some 2, some 3, some 4⟩)], false⟩).1.store) 7 =
      alookup [(7, ⟨some 1, some 2, some 3, some 4⟩)] 7 :=
  C7_absent_ids_untouched
    ⟨[(7, ⟨some 1, some 2, some 3, some 4⟩)], false⟩
    [(1, ⟨some 110, some 11, some 55, some 21⟩)] 7 (by decide)

/-- C8: every `price_update` message carries type "price_update", the
changed-id list itself, a count equal to that list's length, and the
timestamp it was built with; in particular a cycle that commits 1275
changed rows notifies with count 1275. -/
theorem C8_price_update_message (ids : List Nat) (now : String) :
    (notifyPriceUpdates ids now).type = "price_update" ∧
    (notifyPriceUpdates ids now).updated_items = ids ∧
    (notifyPriceUpdates ids now).count = ids.length ∧
    (notifyPriceUpdates ids now).timestamp = now ∧
    (ids.length = 1275 → (notifyPriceUpdates ids now).count = 1275) := by
  refine ⟨rfl, rfl, rfl, rfl, ?_⟩
  intro h
  simpa [notifyPriceUpdates] using h

/-- C8 witness: a message for 1275 changed ids carries count 1275. -/
theorem C8_witness :
    (notifyPriceUpdates (List.range 1275) "2024-01-15T10:30:00").count = 1275 :=
  (C8_price_update_message (List.range 1275) "2024-01-15T10:30:00").2.2.2.2
    (by simp)

theorem getRepApp (y : TaskPhase) (t : List TaskPhase) :
    ∀ k, (List.replicate k TaskPhase.finished ++ (y :: t)).get? k = some y := by
  intro k
  induction k with
  | zero => rfl
  | succ k ih => simpa [List.replicate_succ] using ih

theorem setRepApp (y v : TaskPhase) (t : List TaskPhase) :
    ∀ k, (List.replicate k TaskPhase.finished ++ (y :: t)).set k v =
      List.replicate k TaskPhase.finished ++ (v :: t) := by
  intro k
  induction k with
  | zero => rfl
  | succ k ih =>
      simp only [List.replicate_succ, List.cons_append, List.set]
      exact congrArg (List.cons TaskPhase.finished) ih

theorem repAppCons (m : Nat) :
    ∀ k, List.replicate k TaskPhase.finished ++
        (TaskPhase.finished :: List.replicate m TaskPhase.waiting) =
      List.replicate (k + 1) TaskPhase.finished ++
        List.replicate m TaskPhase.waiting := by
  intro k
  induction k with
  | zero => rfl
  | succ k ih =>
      simp only [List.replicate_succ, List.cons_append]
      exact congrArg (List.cons TaskPhase.finished) ih

/-- The serialized run's invariant: after the first k callers have gone
through the lock, the lock is free, those k callers are finished and
have performed one fetch each, and the rest still wait. -/
theorem runSerialized_invariant (n : Nat) :
    ∀ k, k ≤ n →
      (List.range k).foldl (fun s i => lockStep (lockStep (lockStep s i) i) i)
          (initLockSys n) =
        { lockHeldBy := none
          phases := List.replicate k TaskPhase.finished ++
            List.replicate (n - k) TaskPhase.waiting
          fetchCount := k } := by
  intro k
  induction k with
  | zero => intro _; simp [initLockSys]
  | succ k ih =>
      intro hk
      have hk1 : k ≤ n := by omega
      rw [List.range_succ, List.foldl_append, ih hk1]
      have hnk : n - k = (n - (k + 1)) + 1 := by omega
      have hph : List.replicate (n - k) TaskPhase.waiting =
          TaskPhase.waiting :: List.replicate (n - (k + 1)) TaskPhase.waiting := by
        rw [hnk]; rfl
      rw [hph]
      simp only [List.foldl]
      have e1 : lockStep
          { lockHeldBy := none
            phases := List.replicate k TaskPhase.finished ++
              (TaskPhase.waiting :: List.replicate (n - (k + 1)) TaskPhase.waiting)
            fetchCount := k } k =
          { lockHeldBy := some k
            phases := List.replicate k TaskPhase.finished ++
              (TaskPhase.holding :: List.replicate (n - (k + 1)) TaskPhase.waiting)
            fetchCount := k } := by
        simp only [lockStep]
        rw [getRepApp, setRepApp]
      have e2 : lockStep
          { lockHeldBy := some k
            phases := List.replicate k TaskPhase.finished ++
              (TaskPhase.holding :: List.replicate (n - (k + 1)) TaskPhase.waiting)
            fetchCount := k } k =
          { lockHeldBy := some k
            phases := List.replicate k TaskPhase.finished ++
              (TaskPhase.fetched :: List.replicate (n - (k + 1)) TaskPhase.waiting)
            fetchCount := k + 1 } := by
        simp only [lockStep]
        rw [getRepApp, setRepApp]
      have e3 : lockStep
          { lockHeldBy := some k
            phases := List.replicate k TaskPhase.finished ++
              (TaskPhase.fetched :: List.replicate (n - (k + 1)) TaskPhase.waiting)
            fetchCount := k + 1 } k =
          { lockHeldBy := none
            phases := List.replicate k TaskPhase.finished ++
              (TaskPhase.finished :: List.replicate (n - (k + 1)) TaskPhase.waiting)
            fetchCount := k + 1 } := by
        simp only [lockStep]
        rw [getRepApp]
        simp only [setRepApp]
      rw [e1, e2, e3, repAppCons]

/-- C9 counterexample: two concurrent callers while a refresh is due,
run under the round-robin interleaving of the asyncio event loop: the
total fetch count is 2, not the claimed "exactly one"; moreover after
caller 0 acquires the lock, a step of caller 1 leaves it still waiting —
it does not return immediately. -/
theorem C9_counterexample :
    (runSchedule (initLockSys 2) [0, 1, 0, 1, 0, 1, 1, 1]).fetchCount = 2 ∧
    (lockStep (lockStep (initLockSys 2) 0) 1).phases.get? 1 =
      some TaskPhase.waiting := by
  decide

/-- C9 (amended): the `async with price_update_lock` block serializes
rather than collapses concurrent calls — of N concurrent callers each in
turn acquires the lock, performs its own fetch and releases, for N
fetches in total (one at a time); a caller that finds the lock held
waits (stays blocked at the acquire) instead of returning immediately. -/
theorem C9_serialized_fetches (n : Nat) :
    (runSerialized n).fetchCount = n ∧
    (2 ≤ n → (lockStep (lockStep (initLockSys n) 0) 1).phases.get? 1 =
      some TaskPhase.waiting) := by
  constructor
  · have h := runSerialized_invariant n n (le_refl n)
    rw [runSerialized, h]
  · intro h2
    obtain ⟨m, rfl⟩ : ∃ m, n = m + 2 := ⟨n - 2, by omega⟩
    rfl

/-- C9 witness: with 2 concurrent callers the serialized run performs 2
fetches, and the second caller is still waiting right after the first
acquired the lock. -/
theorem C9_witness :
    (runSerialized 2).fetchCount = 2 ∧
    (lockStep (lockStep (initLockSys 2) 0) 1).phases.get? 1 =
      some TaskPhase.waiting :=
  ⟨(C9_serialized_fetches 2).1, (C9_serialized_fetches 2).2 (by decide)⟩

theorem jsMerge_mem {α : Type} (le : α → α → Bool) :
    ∀ (l1 l2 : List α) (x : α), x ∈ jsMerge le l1 l2 → x ∈ l1 ∨ x ∈ l2 := by
  intro l1
  induction l1 with
  | nil =>
      intro l2 x h
      right
      simpa [jsMerge] using h
  | cons a as ih1 =>
      intro l2
      induction l2 with
      | nil =>
          intro x h
          left
          simpa [jsMerge] using h
      | cons b bs ih2 =>
          intro x h
          simp only [jsMerge] at h
          by_cases hle : le a b = true
          · rw [if_pos hle] at h
            rcases List.mem_cons.1 h with h | h
            · subst h
              left
              exact List.mem_cons_self _ _
            · rcases ih1 (b :: bs) x h with h | h
              · left; exact List.mem_cons_of_mem a h
              · right; exact h
          · rw [if_neg hle] at h
            rcases List.mem_cons.1 h with h | h
            · subst h
              right
              exact List.mem_cons_self _ _
            · rcases ih2 x h with h | h
              · left; exact h
              · right; exact List.mem_cons_of_mem b h

theorem jsMerge_nullsLast {α : Type} (isN : α → Bool) (le : α → α → Bool)
    (h1 : ∀ a b, isN a = true → le a b = false)
    (h2 : ∀ a b, isN a = false → isN b = true → le a b = true) :
    ∀ l1 l2, List.Pairwise (fun x y => isN x = true → isN y = true) l1 →
      List.Pairwise (fun x y => isN x = true → isN y = true) l2 →
      List.Pairwise (fun x y => isN x = true → isN y = true) (jsMerge le l1 l2) := by
  intro l1
  induction l1 with
  | nil =>
      intro l2 _ p2
      simpa [jsMerge] using p2
  | cons a as ih1 =>
      intro l2
      induction l2 with
      | nil =>
          intro p1 _
          simpa [jsMerge] using p1
      | cons b bs ih2 =>
          intro p1 p2
          simp only [jsMerge]
          by_cases hle : le a b = true
          · rw [if_pos hle]
            have hna : isN a = false := by
              cases hcase : isN a with
              | false => rfl
              | true =>
                  rw [h1 a b hcase] at hle
                  exact absurd hle (by simp)
            constructor
            · intro y _ hia
              rw [hna] at hia
              exact absurd hia (by simp)
            · exact ih1 (b :: bs) (List.pairwise_cons.1 p1).2 p2
          · rw [if_neg hle]
            by_cases hnb : isN b = true
            · have hna : isN a = true := by
                cases hcase : isN a with
                | true => rfl
                | false => exact absurd (h2 a b hcase hnb) hle
              have hall1 : ∀ x ∈ a :: as, isN x = true := by
                intro x hx
                rcases List.mem_cons.1 hx with hx | hx
                · subst hx; exact hna
                · exact (List.pairwise_cons.1 p1).1 x hx hna
              have hall2 : ∀ x ∈ bs, isN x = true := fun x hx =>
                (List.pairwise_cons.1 p2).1 x hx hnb
              constructor
              · intro y hy _
                rcases jsMerge_mem le (a :: as) bs y hy with h | h
                · exact hall1 y h
                · exact hall2 y h
              · exact ih2 p1 (List.pairwise_cons.1 p2).2
            · constructor
              · intro y _ hby
                exact absurd hby hnb
              · exact ih2 p1 (List.pairwise_cons.1 p2).2

theorem splitList_length {α : Type} :
    ∀ l : List α,
      (splitList l).1.length + (splitList l).2.length = l.length ∧
      (splitList l).2.length ≤ (splitList l).1.length ∧
      (splitList l).1.length ≤ (splitList l).2.length + 1 := by
  intro l
  induction l with
  | nil => simp [splitList]
  | cons a rest ih =>
      obtain ⟨ih1, ih2, ih3⟩ := ih
      simp only [splitList, List.length_cons]
      omega

theorem jsMergeSortFuel_nullsLast {α : Type} (isN : α → Bool) (le : α → α → Bool)
    (h1 : ∀ a b, isN a = true → le a b = false)
    (h2 : ∀ a b, isN a = false → isN b = true → le a b = true) :
    ∀ (fuel : Nat) (l : List α), l.length ≤ fuel →
      List.Pairwise (fun x y => isN x = true → isN y = true)
        (jsMergeSortFuel le fuel l) := by
  intro fuel
  induction fuel with
  | zero =>
      intro l hl
      have hnil : l = [] := List.length_eq_zero.1 (Nat.le_zero.1 hl)
      subst hnil
      simp [jsMergeSortFuel]
  | succ f ih =>
      intro l hl
      match l with
      | [] => simp [jsMergeSortFuel]
      | [a] => simp [jsMergeSortFuel]
      | a :: b :: rest =>
          obtain ⟨hlen, hq2, hq1⟩ := splitList_length (a :: b :: rest)
          simp only [jsMergeSortFuel]
          apply jsMerge_nullsLast isN le h1 h2
          · apply ih
            simp only [List.length_cons] at hl hlen
            omega
          · apply ih
            simp only [List.length_cons] at hl hlen
            omega

/-- C10: for every sort field and both directions, the items-table sort
places every row whose field value is null or undefined after every row
with a non-null value: in the sorted list, once a nullish-valued row
appears, every later row is also nullish for that field.  The comparator
handles the null checks before applying the direction sign, so toggling
the direction never moves the null rows to the front.  (The theorem is
quantified over the engine's `localeCompare` function `lc`.) -/
theorem C10_nulls_sort_last (lc : String → String → Int) (dir : SortDirection)
    (field : SortField) (items : List Item) :
    List.Pairwise
      (fun a b => jsIsNullish (getSortValue a field) = true →
        jsIsNullish (getSortValue b field) = true)
      (sortItems lc dir field items) := by
  unfold sortItems jsSort
  refine jsMergeSortFuel_nullsLast
    (fun it => jsIsNullish (getSortValue it field)) _ ?_ ?_ items.length items
    (le_refl _)
  · intro a b hna
    simp [itemCompare, hna]
  · intro a b hna hnb
    simp [itemCompare, hna, hnb]
